import Mathlib

/-!
Verification of the A* / weighted-A* / greedy best-first search engine of
pyperplan (`pyperplan/search/a_star.py`) against its natural-language
specification.

The Python source is shallowly embedded below.  States are an abstract type
with decidable equality; operators, tasks and heuristics are structures
mirroring the duck-typed collaborator interfaces; heuristic values are
`Option Nat` with `none` standing for `float("inf")`; the binary heap is
modelled by a list together with a pop-minimum function (`heapq` pops the
entry with the smallest `(f, h, tiebreaker)` tuple; tiebreakers are unique,
so the popped entry is determined by the keys alone); the wall clock is
modelled by a Boolean-valued function of the loop-iteration index (the value
of `time.time() - start_time >= timeout` at the top of each iteration); the
`while` loop runs on explicit fuel; Python `assert` failures and `KeyError`
are modelled with `Except String`.  Two ghost fields (`admitted`, `closed`)
record the history of frontier admissions and of expanded states; they are
written exactly where the corresponding events happen in the source and are
never read by the algorithm.

`searchspace.make_root_node`, `searchspace.make_child_node` and
`SearchNode.extract_solution` belong to a module that is not part of the
sources under verification; they are modelled from the spec (see their doc
comments).
-/

namespace AStar

/-- An operator of a planning task (spec section 6: `name`,
`applicable(state)`, `apply(state)`, and a cost contribution folded into
`g`). -/
structure Operator (S : Type) where
  name : String
  applicable : S → Bool
  apply : S → S
  cost : Nat

/-- The external Task collaborator (spec section 6): initial state, goal
predicate, successor function, operator collection. -/
structure Task (S : Type) where
  initial_state : S
  goal_reached : S → Bool
  get_successor_states : S → List (Operator S × S)
  operators : List (Operator S)

/-- Modelled from the spec: the SearchNode of the (absent) `searchspace`
module — "the state it represents, accumulated path cost `g`, an ownership
link to its parent SearchNode (or none for the root), the operator that
produced it from its parent" (spec section 3). -/
inductive SearchNode (S : Type) : Type where
  | root (state : S)
  | child (state : S) (g : Nat) (parent : SearchNode S) (op : Operator S)

/-- The state a search node represents. -/
def SearchNode.state {S : Type} : SearchNode S → S
  | .root s => s
  | .child s _ _ _ => s

/-- The accumulated path cost of a search node (0 for the root). -/
def SearchNode.g {S : Type} : SearchNode S → Nat
  | .root _ => 0
  | .child _ g _ _ => g

/-- Modelled from the spec: `searchspace.make_root_node` — the root node for
the initial state, with `g = 0` and no parent. -/
def make_root_node {S : Type} (state : S) : SearchNode S :=
  .root state

/-- Modelled from the spec: `searchspace.make_child_node` — "Build the
successor node (`g` = parent `g` + operator cost, parent = current node)"
(spec section 4.3 step 7). -/
def make_child_node {S : Type} (parent : SearchNode S) (op : Operator S) (state : S) :
    SearchNode S :=
  .child state (parent.g + op.cost) parent op

/-- Modelled from the spec: `extract_solution` — "reconstruct the solution by
walking parent links from this node to the root, reversing order, and return
the operator sequence" (spec section 4.3 step 5). -/
def SearchNode.extract_solution {S : Type} : SearchNode S → List (Operator S)
  | .root _ => []
  | .child _ _ parent op => parent.extract_solution ++ [op]

/-- Heuristic values: `some k` is a finite value, `none` is
`float("inf")`. -/
abbrev HVal := Option Nat

/-- Strict order on heuristic/priority values, `none` being `+infinity`
(mirrors Python `<` on numbers and `float("inf")`). -/
def vLT : HVal → HVal → Bool
  | some a, some b => decide (a < b)
  | some _, none => true
  | none, _ => false

/-- `g + h` with `h` possibly infinite (mirrors Python addition where
`g + inf = inf`). -/
def addG (g : Nat) : HVal → HVal
  | some h => some (g + h)
  | none => none

/-- One entry of the open list: the tuple
`(f, h, node_tiebreaker, node)` pushed by `make_open_entry`. -/
structure Entry (S : Type) where
  f : HVal
  h : HVal
  tie : Nat
  node : SearchNode S

/-- `ordered_node_astar`: key `(g + h, h, tiebreaker)`. -/
def ordered_node_astar {S : Type} (node : SearchNode S) (h : HVal) (node_tiebreaker : Nat) :
    Entry S :=
  ⟨addG node.g h, h, node_tiebreaker, node⟩

/-- `ordered_node_weighted_astar`: key `(g + weight*h, h, tiebreaker)`. -/
def ordered_node_weighted_astar {S : Type} (weight : Nat) :
    SearchNode S → HVal → Nat → Entry S :=
  fun node h node_tiebreaker =>
    ⟨addG node.g (h.map (fun x => weight * x)), h, node_tiebreaker, node⟩

/-- `ordered_node_greedy_best_first`: key `(h, h, tiebreaker)`. -/
def ordered_node_greedy_best_first {S : Type} (node : SearchNode S) (h : HVal)
    (node_tiebreaker : Nat) : Entry S :=
  ⟨h, h, node_tiebreaker, node⟩

/-- Lexicographic comparison of heap keys `(f, h, tiebreaker)` — the order
`heapq` uses on the pushed tuples (the node itself is never compared because
tiebreakers are unique). -/
def keyLT {S : Type} (a b : Entry S) : Bool :=
  vLT a.f b.f || (a.f == b.f && (vLT a.h b.h || (a.h == b.h && decide (a.tie < b.tie))))

/-- `heapq.heappop`: remove and return the entry with the least key together
with the remaining entries. -/
def popMin {S : Type} : List (Entry S) → Option (Entry S × List (Entry S))
  | [] => none
  | e :: es =>
    match popMin es with
    | none => some (e, [])
    | some (m, rest) => if keyLT m e then some (m, e :: rest) else some (e, es)

/-- The external Heuristic collaborator (spec section 6): `h(node)` and the
optional `calc_h_with_plan(node)` returning a value plus a relaxed-plan
operator-name set (or `none` in place of Python `None`). -/
structure Heuristic (S : Type) where
  h : SearchNode S → HVal
  calc_h_with_plan : SearchNode S → HVal × Option (List String)

/-- The `metrics` dictionary. -/
structure Metrics where
  nodes_expanded : Nat
  nodes_created : Nat
  deriving Repr, DecidableEq

/-- `state_cost` lookup (Python `dict` access: the value of the unique entry
for the key, here the first matching entry of the association list). -/
def lookupCost {S : Type} [DecidableEq S] : List (S × Nat) → S → Option Nat
  | [], _ => none
  | (s', g) :: t, s => if s = s' then some g else lookupCost t s

/-- `state_cost[s] = g` (Python `dict` assignment: replaces any entry for the
key). -/
def setCost {S : Type} [DecidableEq S] (t : List (S × Nat)) (s : S) (g : Nat) :
    List (S × Nat) :=
  (s, g) :: t.filter (fun p => decide (p.1 ≠ s))

/-- The mutable state of one `astar_search` invocation: the open list, the
cost table, the tiebreak counter, the metrics, and the local variables
`besth`, `counter`, `expansions` of the main loop; plus two ghost history
fields (`admitted` records every `(state, g)` ever pushed onto the open
list, `closed` records every state whose node was expanded). -/
structure LoopState (S : Type) where
  open_ : List (Entry S)
  state_cost : List (S × Nat)
  node_tiebreaker : Nat
  metrics : Metrics
  besth : HVal
  counter : Nat
  expansions : Nat
  admitted : List (S × Nat)
  closed : List S

/-- The parameters of one search invocation: the `task`, `heuristic`,
`make_open_entry` and `use_relaxed_plan` arguments of `astar_search`, plus
the clock (the value of `time.time() - start_time >= timeout` at the top of
loop iteration `i`). -/
structure Config (S : Type) where
  task : Task S
  heuristic : Heuristic S
  make_open_entry : SearchNode S → HVal → Nat → Entry S
  use_relaxed_plan : Bool
  clock : Nat → Bool

/-- The admission test and admission (a_star.py lines 183–190 and 249–256;
the two code blocks are textually identical, so they share this one
definition): push the candidate and record its cost iff its `g` is strictly
below the best known cost of its state, a state absent from the table
counting as infinity. -/
def admitCandidate {S : Type} [DecidableEq S] (cfg : Config S) (st : LoopState S)
    (succ_node : SearchNode S) (h : HVal) : LoopState S :=
  if vLT (some succ_node.g) (lookupCost st.state_cost succ_node.state) then
    { st with
      node_tiebreaker := st.node_tiebreaker + 1,
      open_ := cfg.make_open_entry succ_node h (st.node_tiebreaker + 1) :: st.open_,
      metrics := { st.metrics with nodes_created := st.metrics.nodes_created + 1 },
      state_cost := setCost st.state_cost succ_node.state succ_node.g,
      admitted := (succ_node.state, succ_node.g) :: st.admitted }
  else st

/-- Processing of one `(op, succ_state)` pair inside the successor loop
(a_star.py lines 231–256): optional relaxed-plan filtering, child
construction, dead-end check, admission. -/
def processSuccessor {S : Type} [DecidableEq S] (cfg : Config S)
    (rplan : Option (List String)) (pop_node : SearchNode S) (st : LoopState S)
    (p : Operator S × S) : LoopState S :=
  if cfg.use_relaxed_plan &&
      (match rplan with
       | some l => !l.isEmpty && !l.contains p.1.name
       | none => false) then
    st
  else
    let succ_node := make_child_node pop_node p.1 p.2
    let h := cfg.heuristic.h succ_node
    if h = none then st
    else admitCandidate cfg st succ_node h

/-- Result of one iteration of the main loop body. -/
inductive StepResult (S : Type) where
  | done (plan : Option (List (Operator S))) (st : LoopState S)
  | next (st : LoopState S)
  | fail (msg : String)

/-- The `besth` update performed on every pop (a_star.py lines 208–210). -/
def besthUpd {S : Type} (st : LoopState S) (e : Entry S) : HVal :=
  if vLT e.h st.besth then e.h else st.besth

/-- The state right after a live pop (a_star.py lines 207–218): the popped
entry removed, `besth` updated, `expansions` and `nodes_expanded`
incremented, the popped state recorded in the ghost `closed` set. -/
def expandBase {S : Type} (st : LoopState S) (e : Entry S) (rest : List (Entry S)) :
    LoopState S :=
  { st with
    open_ := rest,
    besth := besthUpd st e,
    expansions := st.expansions + 1,
    metrics := { st.metrics with nodes_expanded := st.metrics.nodes_expanded + 1 },
    closed := e.node.state :: st.closed }

/-- The state after a stale pop (a_star.py lines 207–216 and 258): the
popped entry removed, `besth` updated, only the iteration counter
advanced. -/
def skipState {S : Type} (st : LoopState S) (e : Entry S) (rest : List (Entry S)) :
    LoopState S :=
  { st with open_ := rest, besth := besthUpd st e, counter := st.counter + 1 }

/-- The relaxed-plan operator-name set computed for an expanded state
(a_star.py lines 224–229): `None` unless relaxed-plan guidance is on. -/
def rplanOf {S : Type} (cfg : Config S) (s : S) : Option (List String) :=
  if cfg.use_relaxed_plan then (cfg.heuristic.calc_h_with_plan (make_root_node s)).2
  else none

/-- The state after the full successor loop of one expansion (a_star.py
lines 231–256). -/
def expandedState {S : Type} [DecidableEq S] (cfg : Config S) (st : LoopState S)
    (e : Entry S) (rest : List (Entry S)) : LoopState S :=
  (cfg.task.get_successor_states e.node.state).foldl
    (processSuccessor cfg (rplanOf cfg e.node.state) e.node) (expandBase st e rest)

/-- One iteration of the body of `while open:` (a_star.py lines 207–258),
excluding the timeout check: pop the minimum entry, update `besth`, test
staleness against the cost table (`state_cost[pop_state]`, a `KeyError` when
absent), and either discard the stale entry or expand the node (goal test,
optional relaxed-plan computation, successor loop); `counter` is advanced at
the end of every iteration that does not return. -/
def loopStep {S : Type} [DecidableEq S] (cfg : Config S) (st : LoopState S) :
    StepResult S :=
  match popMin st.open_ with
  | none => .next st
  | some (e, rest) =>
    match lookupCost st.state_cost e.node.state with
    | none => .fail "KeyError: state_cost"
    | some c =>
      if c = e.node.g then
        if cfg.task.goal_reached e.node.state then
          .done (some e.node.extract_solution) (expandBase st e rest)
        else
          .next { expandedState cfg st e rest with
                  counter := (expandedState cfg st e rest).counter + 1 }
      else
        .next (skipState st e rest)

/-- Outcome of a search: the `(plan, metrics)` pair returned by the Python
function, or fuel exhaustion of the model's bounded `while` loop. -/
inductive SearchResult (S : Type) where
  | finished (plan : Option (List (Operator S))) (metrics : Metrics)
  | fuelOut

/-- The `while open:` loop (a_star.py lines 201–261): while the open list is
nonempty, return on timeout, else run one body iteration; on exhaustion of
the open list return `(None, metrics)`.  `fuel` bounds the number of
iterations; `i` is the iteration index fed to the clock.  The final
`LoopState` is returned alongside the result for the statements below. -/
def runLoop {S : Type} [DecidableEq S] (cfg : Config S) :
    Nat → Nat → LoopState S → Except String (SearchResult S × LoopState S)
  | fuel, i, st =>
    if st.open_.isEmpty then .ok (.finished none st.metrics, st)
    else
      match fuel with
      | 0 => .ok (.fuelOut, st)
      | fuel' + 1 =>
        if cfg.clock i then .ok (.finished none st.metrics, st)
        else
          match loopStep cfg st with
          | .fail msg => .error msg
          | .done plan st' => .ok (.finished plan st'.metrics, st')
          | .next st' => runLoop cfg fuel' (i + 1) st'

/-- `op_map[op_name]` where `op_map = {op.name: op for op in task.operators}`
(a later operator with the same name overwrites an earlier one, as in a
Python dict comprehension). -/
def opMapLookup {S : Type} (ops : List (Operator S)) (name : String) :
    Option (Operator S) :=
  ops.foldl (fun acc op => if op.name = name then some op else acc) none

/-- Replay of one partial plan from the seeder (a_star.py lines 155–192):
resolve each operator name, handle misses and inapplicable operators per the
guidance method (`continue`, `break`, or an assertion failure for any other
method), stop at an infinite heuristic value, otherwise attempt admission
and advance the replay cursor to the new node. -/
def replayPlan {S : Type} [DecidableEq S] (cfg : Config S) (method : String) :
    LoopState S → SearchNode S → List String → Except String (LoopState S)
  | st, _, [] => .ok st
  | st, node, op_name :: rest =>
    match opMapLookup cfg.task.operators op_name with
    | none =>
      if method = "init-queue-continue" then replayPlan cfg method st node rest
      else if method = "init-queue-break" then .ok st
      else .error "AssertionError: partial_plan_guidance_method == init-queue-break"
    | some op =>
      if op.applicable node.state then
        let succ_state := op.apply node.state
        let succ_node := make_child_node node op succ_state
        let h := cfg.heuristic.h succ_node
        if h = none then .ok st
        else replayPlan cfg method (admitCandidate cfg st succ_node h) succ_node rest
      else
        if method = "init-queue-continue" then replayPlan cfg method st node rest
        else if method = "init-queue-break" then .ok st
        else .error "AssertionError: partial_plan_guidance_method == init-queue-break"

/-- Replay of every seed plan in order, each starting from the root
(a_star.py lines 154–192). -/
def seedAll {S : Type} [DecidableEq S] (cfg : Config S) (method : String)
    (root : SearchNode S) : LoopState S → List (List String) → Except String (LoopState S)
  | st, [] => .ok st
  | st, p :: ps => do
    let st' ← replayPlan cfg method st root p
    seedAll cfg method root st' ps

/-- Whether `needle` is a prefix of the character list. -/
def charsPrefix : List Char → List Char → Bool
  | [], _ => true
  | _ :: _, [] => false
  | a :: as, b :: bs => a == b && charsPrefix as bs

/-- Whether `needle` occurs as a contiguous sublist. -/
def charsInfix (needle : List Char) : List Char → Bool
  | [] => charsPrefix needle []
  | b :: bs => charsPrefix needle (b :: bs) || charsInfix needle bs

/-- Python substring containment `needle in hay`. -/
def strContains (hay needle : String) : Bool :=
  charsInfix needle.data hay.data

/-- The search state as it stands right after the root push (a_star.py lines
139–149): metrics `{expanded: 0, created: 1}`, cost table
`{initial_state: 0}`, tiebreaker 0, the root entry pushed with the root's
heuristic value (unconditionally — even an infinite value), `besth` the
root's heuristic value, `counter` and `expansions` 0. -/
def initialLoopState {S : Type} [DecidableEq S] (cfg : Config S) : LoopState S :=
  let root := make_root_node cfg.task.initial_state
  let init_h := cfg.heuristic.h root
  { open_ := [cfg.make_open_entry root init_h 0],
    state_cost := [(cfg.task.initial_state, 0)],
    node_tiebreaker := 0,
    metrics := ⟨0, 1⟩,
    besth := init_h,
    counter := 0,
    expansions := 0,
    admitted := [(cfg.task.initial_state, 0)],
    closed := [] }

/-- Everything of `astar_search` that precedes the main loop (a_star.py
lines 139–192): initialization, the deprecated-method assertion, and the
partial-plan seeding (which runs only when partial plans are given and the
method contains the substring `"init-queue"`). -/
def seedPhase {S : Type} [DecidableEq S] (cfg : Config S)
    (partial_plans : Option (List (List String)))
    (partial_plan_guidance_method : String) : Except String (LoopState S) :=
  let st0 := initialLoopState cfg
  if partial_plan_guidance_method = "edit-distance" then
    .error "AssertionError: DEPRECATED"
  else
    match partial_plans with
    | some plans =>
      if strContains partial_plan_guidance_method "init-queue" then
        seedAll cfg partial_plan_guidance_method (make_root_node cfg.task.initial_state)
          st0 plans
      else .ok st0
    | none => .ok st0

/-- `astar_search` (a_star.py lines 121–261): initialization and seeding
followed by the main loop. -/
def astar_search {S : Type} [DecidableEq S] (cfg : Config S) (fuel : Nat)
    (partial_plans : Option (List (List String)))
    (partial_plan_guidance_method : String) :
    Except String (SearchResult S × LoopState S) := do
  let st1 ← seedPhase cfg partial_plans partial_plan_guidance_method
  runLoop cfg fuel 0 st1

/-- The `(plan, metrics)` value `astar_search` returns (the final loop state
dropped). -/
def astarOutcome {S : Type} [DecidableEq S] (cfg : Config S) (fuel : Nat)
    (partial_plans : Option (List (List String)))
    (partial_plan_guidance_method : String) : Except String (SearchResult S) :=
  (astar_search cfg fuel partial_plans partial_plan_guidance_method).map Prod.fst

/-- `greedy_best_first_search`: `astar_search` with the greedy ordering. -/
def greedy_best_first_search {S : Type} [DecidableEq S] (task : Task S)
    (heuristic : Heuristic S) (clock : Nat → Bool) (fuel : Nat)
    (use_relaxed_plan : Bool)
    (partial_plans : Option (List (List String)))
    (partial_plan_guidance_method : String) :
    Except String (SearchResult S × LoopState S) :=
  astar_search ⟨task, heuristic, ordered_node_greedy_best_first, use_relaxed_plan, clock⟩
    fuel partial_plans partial_plan_guidance_method

/-- `weighted_astar_search`: `astar_search` with the weighted ordering. -/
def weighted_astar_search {S : Type} [DecidableEq S] (task : Task S)
    (heuristic : Heuristic S) (clock : Nat → Bool) (fuel : Nat) (weight : Nat)
    (use_relaxed_plan : Bool)
    (partial_plans : Option (List (List String)))
    (partial_plan_guidance_method : String) :
    Except String (SearchResult S × LoopState S) :=
  astar_search ⟨task, heuristic, ordered_node_weighted_astar weight, use_relaxed_plan, clock⟩
    fuel partial_plans partial_plan_guidance_method

/-- Reachability in a task's state space: the initial state, closed under
the task's successor function. -/
inductive ReachableState {S : Type} (task : Task S) : S → Prop where
  | init : ReachableState task task.initial_state
  | succ (s s' : S) (op : Operator S) (h : ReachableState task s)
      (hmem : (op, s') ∈ task.get_successor_states s) : ReachableState task s'

/-- The points of one search invocation at which the duplicate-suppression
invariant is claimed to hold: right after seeding, and after every loop
iteration that continues the search. -/
inductive SearchPoint {S : Type} [DecidableEq S] (cfg : Config S)
    (partial_plans : Option (List (List String))) (method : String) :
    LoopState S → Prop where
  | seeded (st : LoopState S) (h : seedPhase cfg partial_plans method = .ok st) :
      SearchPoint cfg partial_plans method st
  | stepped (st st' : LoopState S) (h : SearchPoint cfg partial_plans method st)
      (hs : loopStep cfg st = .next st') : SearchPoint cfg partial_plans method st'

/-- The duplicate-suppression invariant of the cost table: for every state
present, the table's value is the minimum `g` over all nodes ever admitted
to the frontier for that state (membership plus lower bound over the ghost
admission history). -/
def costTableIsMinAdmitted {S : Type} [DecidableEq S] (st : LoopState S) : Prop :=
  ∀ s g, lookupCost st.state_cost s = some g →
    (s, g) ∈ st.admitted ∧ ∀ g', (s, g') ∈ st.admitted → g ≤ g'

/-- Auxiliary strengthening of the invariant: every state ever admitted is
present in the cost table. -/
def admittedInTable {S : Type} [DecidableEq S] (st : LoopState S) : Prop :=
  ∀ s g, (s, g) ∈ st.admitted → ∃ c, lookupCost st.state_cost s = some c

/-- The three-state space of the concrete scenario of the spec (section 8):
`S0` initial, `S2` the goal. -/
inductive S3 where
  | S0 | S1 | S2
  deriving DecidableEq, Repr

/-- The operator `inc` of the concrete scenario: `S0 -> S1`, cost 1. -/
def incOp : Operator S3 :=
  ⟨"inc", fun s => s == .S0, fun s => match s with | .S0 => .S1 | s => s, 1⟩

/-- The operator `jump` of the concrete scenario: `S0 -> S2`, cost 10. -/
def jumpOp : Operator S3 :=
  ⟨"jump", fun s => s == .S0, fun s => match s with | .S0 => .S2 | s => s, 10⟩

/-- The task of the concrete scenario: initial `S0`, goal `S2`, operators
`inc` and `jump`, both applicable only in `S0`. -/
def task1 : Task S3 :=
  ⟨.S0, fun s => s == .S2,
   fun s => match s with | .S0 => [(incOp, .S1), (jumpOp, .S2)] | _ => [],
   [incOp, jumpOp]⟩

/-- The heuristic of the concrete scenario: 0 for `S2`, 1 otherwise. -/
def heur1 : Heuristic S3 :=
  ⟨fun n => if n.state = .S2 then some 0 else some 1, fun _ => (some 0, none)⟩

/-- Plain A* configuration for the concrete scenario: default ordering, no
relaxed-plan guidance, timeout never expiring. -/
def cfg1 : Config S3 := ⟨task1, heur1, ordered_node_astar, false, fun _ => false⟩

/-- A loop state holding exactly one stale entry: the open list holds a node
for `S1` with `g = 2` while the cost table already records cost 1 for
`S1`. -/
def staleSt : LoopState S3 :=
  { open_ := [⟨some 3, some 1, 1, .child .S1 2 (.root .S0) incOp⟩],
    state_cost := [(.S1, 1), (.S0, 0)],
    node_tiebreaker := 1,
    metrics := ⟨1, 2⟩,
    besth := some 1,
    counter := 1,
    expansions := 1,
    admitted := [(.S1, 1), (.S0, 0)],
    closed := [.S0] }

/-- A task whose goal is unreachable and whose state `true` is reachable
from the initial state `false` by the single operator. -/
def taskB : Task Bool :=
  ⟨false, fun _ => false,
   fun s => match s with | false => [(⟨"b", fun _ => true, fun _ => true, 1⟩, true)] | true => [],
   [⟨"b", fun _ => true, fun _ => true, 1⟩]⟩

/-- A heuristic that is infinite exactly on the reachable state `true`. -/
def heurB : Heuristic Bool :=
  ⟨fun n => match n.state with | true => none | false => some 0, fun _ => (some 0, none)⟩

/-- Plain A* configuration for `taskB` with `heurB`, timeout never
expiring. -/
def cfgB : Config Bool := ⟨taskB, heurB, ordered_node_astar, false, fun _ => false⟩

/-- A one-state task with no applicable operators whose single state is not
a goal (the spec's canonical unsolvable task). -/
def taskU : Task Unit :=
  ⟨(), fun _ => false, fun _ => [], []⟩

/-- An everywhere-finite heuristic on the one-state task. -/
def heurU : Heuristic Unit :=
  ⟨fun _ => some 0, fun _ => (some 0, none)⟩

/-- Plain A* configuration for `taskU`, timeout never expiring. -/
def cfgU : Config Unit := ⟨taskU, heurU, ordered_node_astar, false, fun _ => false⟩

/-- A one-state task whose initial state is a goal. -/
def taskG : Task Unit :=
  ⟨(), fun _ => true, fun _ => [], []⟩

/-- A heuristic that is infinite everywhere (in particular on the root). -/
def heurInf : Heuristic Unit :=
  ⟨fun _ => none, fun _ => (none, none)⟩

/-- The number of states of `R` not yet present in the cost table (first
component of the termination measure of the main loop). -/
def countNotIn {S : Type} [DecidableEq S] (R : List S) (t : List (S × Nat)) : Nat :=
  (R.filter (fun x => (lookupCost t x).isNone)).length

/-- The sum of all recorded costs (second component of the termination
measure of the main loop). -/
def tableSum {S : Type} (t : List (S × Nat)) : Nat :=
  (t.map Prod.snd).sum

/-- The first two components of the loop's termination measure, compared
lexicographically: new-state admissions shrink the first, re-admissions at a
strictly cheaper cost shrink the second. -/
def abMeasure {S : Type} [DecidableEq S] (R : List S) (st : LoopState S) : Nat × Nat :=
  (countNotIn R st.state_cost, tableSum st.state_cost)

/-- Strict lexicographic order on the measure pairs. -/
def abLt (a b : Nat × Nat) : Prop :=
  a.1 < b.1 ∨ (a.1 = b.1 ∧ a.2 < b.2)

/-- State `s` has a live open entry: one whose node is for `s` with `g`
equal to the cost table's current value. -/
def hasLiveEntry {S : Type} [DecidableEq S] (st : LoopState S) (s : S) : Prop :=
  ∃ e ∈ st.open_, e.node.state = s ∧ lookupCost st.state_cost s = some e.node.g

/-- State `s` has been expanded and all of its successors are recorded in
the cost table. -/
def closedCovered {S : Type} [DecidableEq S] (cfg : Config S) (st : LoopState S)
    (s : S) : Prop :=
  s ∈ st.closed ∧
    ∀ p ∈ cfg.task.get_successor_states s, ∃ c, lookupCost st.state_cost p.2 = some c

/-- The exhaustion invariant of the main loop: the initial state is
recorded; every recorded state is reachable; every open entry's state is
recorded at a cost no larger than the entry's `g`; every recorded state
either has a live open entry or has been expanded with all its successors
recorded; every expanded state is recorded. -/
structure ExhInv {S : Type} [DecidableEq S] (cfg : Config S) (st : LoopState S) :
    Prop where
  init_mem : ∃ c, lookupCost st.state_cost cfg.task.initial_state = some c
  table_reach : ∀ s g, lookupCost st.state_cost s = some g → ReachableState cfg.task s
  open_table : ∀ e ∈ st.open_,
    ∃ c, lookupCost st.state_cost e.node.state = some c ∧ c ≤ e.node.g
  live_or_closed : ∀ s, (∃ g, lookupCost st.state_cost s = some g) →
    hasLiveEntry st s ∨ closedCovered cfg st s
  closed_table : ∀ s ∈ st.closed, ∃ c, lookupCost st.state_cost s = some c

/-- The exhaustion invariant as it stands while the successor loop of an
expansion of state `s0` is in progress: as `ExhInv`, except that `s0` —
already recorded and already expanded — is temporarily exempt from the
live-or-covered requirement (it regains it once all its successors have
been recorded). -/
structure ExhInvE {S : Type} [DecidableEq S] (cfg : Config S) (st : LoopState S)
    (s0 : S) : Prop where
  init_mem : ∃ c, lookupCost st.state_cost cfg.task.initial_state = some c
  table_reach : ∀ s g, lookupCost st.state_cost s = some g → ReachableState cfg.task s
  open_table : ∀ e ∈ st.open_,
    ∃ c, lookupCost st.state_cost e.node.state = some c ∧ c ≤ e.node.g
  live_or_closed_e : ∀ s, (∃ g, lookupCost st.state_cost s = some g) →
    s = s0 ∨ hasLiveEntry st s ∨ closedCovered cfg st s
  closed_table : ∀ s ∈ st.closed, ∃ c, lookupCost st.state_cost s = some c
  popped_closed : s0 ∈ st.closed

theorem lookupCost_setCost_self {S : Type} [DecidableEq S] (t : List (S × Nat)) (s : S)
    (g : Nat) : lookupCost (setCost t s g) s = some g := by
  simp [setCost, lookupCost]

theorem lookupCost_filter_ne {S : Type} [DecidableEq S] (t : List (S × Nat)) (s s' : S)
    (h : s' ≠ s) :
    lookupCost (t.filter (fun p => decide (p.1 ≠ s))) s' = lookupCost t s' := by
  induction t with
  | nil => rfl
  | cons p t ih =>
    obtain ⟨p1, p2⟩ := p
    rw [List.filter_cons]
    by_cases hp : p1 = s
    · have hd : (decide (((p1, p2) : S × Nat).1 ≠ s)) = false := by simp [hp]
      rw [hd]
      simp only [Bool.false_eq_true, if_false]
      rw [ih]
      have hs : s' ≠ p1 := fun hh => h (hp ▸ hh)
      simp [lookupCost, hs]
    · have hd : (decide (((p1, p2) : S × Nat).1 ≠ s)) = true := by simp [hp]
      rw [hd]
      simp only [if_true]
      simp only [lookupCost]
      by_cases hs : s' = p1
      · rw [if_pos hs, if_pos hs]
      · rw [if_neg hs, if_neg hs]
        exact ih

theorem runLoop_succ {S : Type} [DecidableEq S] (cfg : Config S) (fuel i : Nat)
    (st : LoopState S) :
    runLoop cfg (fuel + 1) i st
      = if st.open_.isEmpty then .ok (.finished none st.metrics, st)
        else if cfg.clock i then .ok (.finished none st.metrics, st)
        else
          match loopStep cfg st with
          | .fail msg => .error msg
          | .done plan st' => .ok (.finished plan st'.metrics, st')
          | .next st' => runLoop cfg fuel (i + 1) st' := by
  rw [runLoop]

theorem runLoop_zero {S : Type} [DecidableEq S] (cfg : Config S) (i : Nat)
    (st : LoopState S) :
    runLoop cfg 0 i st
      = if st.open_.isEmpty then .ok (.finished none st.metrics, st)
        else .ok (.fuelOut, st) := by
  rw [runLoop]

theorem lookupCost_setCost_ne {S : Type} [DecidableEq S] (t : List (S × Nat)) (s s' : S)
    (g : Nat) (h : s' ≠ s) : lookupCost (setCost t s g) s' = lookupCost t s' := by
  simp only [setCost, lookupCost, if_neg h]
  exact lookupCost_filter_ne t s s' h

/-- C1.  The concrete scenario of the spec, as claimed — initial `S0`,
operators `inc` (cost 1) and `jump` (cost 10), goal `S2`, heuristic 0 at
`S2` and 1 elsewhere, plain A*, no guidance, timeout never expiring —
does NOT return metrics `nodes_expanded = 2`: the code increments
`nodes_expanded` on the goal node too, before the goal test. -/
theorem c1_counterexample :
    ¬ (astarOutcome cfg1 10 none "init-queue"
        = .ok (.finished (some [jumpOp]) ⟨2, 3⟩)) := by
  have e : astarOutcome cfg1 10 none "init-queue"
      = .ok (.finished (some [jumpOp]) ⟨3, 3⟩) := by rfl
  rw [e]
  intro h
  have h2 : (Metrics.mk 3 3) = (Metrics.mk 2 3) := by
    injection h with h1
    injection h1
  simp at h2

/-- C1 (amended).  The concrete scenario returns the plan `[jump]` with
metrics `nodes_created = 3` and `nodes_expanded = 3`: the root `S0`, then
`S1` (cheaper `f`), then the goal node `S2` — expansion is counted before
the goal test, so the goal node is included. -/
theorem c1_concrete_scenario :
    astarOutcome cfg1 10 none "init-queue"
      = .ok (.finished (some [jumpOp]) ⟨3, 3⟩) := by rfl

/-- C2.  A malformed (unrecognized, non-deprecated) guidance-mode selector
is NOT rejected at call time: with selector `"bogus-mode"` the search runs
to completion and returns a plan, performing all of its search work. -/
theorem c2_counterexample :
    astarOutcome cfg1 10 none "bogus-mode"
      = .ok (.finished (some [jumpOp]) ⟨3, 3⟩) := by rfl

/-- C2 (amended).  Only the deprecated `"edit-distance"` selector is
rejected (by an assertion placed after root-node creation, heuristic
evaluation and frontier insertion in the source, but before any seeding);
every other selector value is accepted. -/
theorem c2_amended {S : Type} [DecidableEq S] (cfg : Config S) (fuel : Nat)
    (partial_plans : Option (List (List String))) :
    astar_search cfg fuel partial_plans "edit-distance"
      = .error "AssertionError: DEPRECATED" := by rfl

/-- C7.  With a timeout of 0 (the elapsed-time test holds from the very
first loop iteration on, since `time.time() - start_time >= 0` always), any
search — any task, heuristic, ordering strategy, relaxed-plan flag, no
partial plans — returns no plan with metrics `nodes_created = 1`,
`nodes_expanded = 0`. -/
theorem c7_timeout_zero {S : Type} [DecidableEq S] (task : Task S)
    (heuristic : Heuristic S) (mk : SearchNode S → HVal → Nat → Entry S)
    (urp : Bool) (fuel : Nat) :
    astarOutcome ⟨task, heuristic, mk, urp, fun _ => true⟩ (fuel + 1) none "init-queue"
      = .ok (.finished none ⟨0, 1⟩) := by rfl

/-- C10.  The root node is admitted to the frontier unconditionally (the
push at line 148 has no dead-end check), and for every task whose initial
state satisfies the goal predicate — with the timeout not expired at the
first iteration — plain `astar_search` returns the empty plan with
`nodes_created = 1` and `nodes_expanded = 1`, for every heuristic
(including one that is infinite on the root). -/
theorem c10_goal_at_root {S : Type} [DecidableEq S] (task : Task S)
    (heuristic : Heuristic S) (urp : Bool) (clock : Nat → Bool) (fuel : Nat)
    (hg : task.goal_reached task.initial_state = true)
    (hc : clock 0 = false) :
    astarOutcome ⟨task, heuristic, ordered_node_astar, urp, clock⟩ (fuel + 1) none
        "init-queue"
      = .ok (.finished (some []) ⟨1, 1⟩) := by
  set cfg : Config S := ⟨task, heuristic, ordered_node_astar, urp, clock⟩ with hcfg
  have h0 : astarOutcome cfg (fuel + 1) none "init-queue"
      = (runLoop cfg (fuel + 1) 0 (initialLoopState cfg)).map Prod.fst := rfl
  rw [h0, runLoop_succ]
  have hne : (initialLoopState cfg).open_.isEmpty = false := rfl
  have hc' : cfg.clock 0 = false := hc
  rw [hne, if_neg (by simp), hc', if_neg (by simp)]
  have hstep : loopStep cfg (initialLoopState cfg)
      = .done (some []) { initialLoopState cfg with
          open_ := [],
          besth := (initialLoopState cfg).besth,
          expansions := 1,
          metrics := ⟨1, 1⟩,
          closed := [cfg.task.initial_state] } := by
    have hg' : cfg.task.goal_reached cfg.task.initial_state = true := hg
    simp only [loopStep, initialLoopState, popMin, make_root_node, ordered_node_astar,
      SearchNode.state, SearchNode.g, lookupCost, if_pos rfl, hg', if_true,
      SearchNode.extract_solution, expandBase, besthUpd]
    simp [vLT, hg]
  rw [hstep]
  rfl

/-- A witness for C10: the one-state task whose initial state is a goal,
with the everywhere-infinite heuristic. -/
theorem c10_goal_at_root_witness :
    astarOutcome ⟨taskG, heurInf, ordered_node_astar, false, fun _ => false⟩ 1 none
        "init-queue"
      = .ok (.finished (some []) ⟨1, 1⟩) :=
  c10_goal_at_root taskG heurInf false (fun _ => false) 0 rfl rfl

/-- C4.  A popped entry whose node's `g` exceeds the cost table's value for
its state is discarded: the loop iteration removes it from the open list,
updates only `besth` and the iteration counter, and leaves everything else
— in particular `nodes_expanded`, the metrics, the ghost `closed` set, the
cost table, and the open list beyond the removed entry — unchanged; no goal
test outcome and no successors are produced (the result is `.next` of
exactly the skip state). -/
theorem c4_stale_discarded {S : Type} [DecidableEq S] (cfg : Config S)
    (st : LoopState S) (e : Entry S) (rest : List (Entry S)) (c : Nat)
    (hpop : popMin st.open_ = some (e, rest))
    (hlook : lookupCost st.state_cost e.node.state = some c)
    (hlt : c < e.node.g) :
    loopStep cfg st
      = .next { st with open_ := rest,
                        besth := if vLT e.h st.besth then e.h else st.besth,
                        counter := st.counter + 1 } := by
  simp only [loopStep, hpop, hlook]
  rw [if_neg (Nat.ne_of_lt hlt)]
  rfl

/-- A witness for C4: a concrete state whose single open entry holds `g = 2`
for `S1` while the cost table records 1. -/
theorem c4_stale_discarded_witness :
    loopStep cfg1 staleSt
      = .next { staleSt with open_ := [], besth := some 1, counter := 2 } :=
  c4_stale_discarded cfg1 staleSt ⟨some 3, some 1, 1, .child .S1 2 (.root .S0) incOp⟩
    [] 1 rfl rfl (by decide)

/-- C5.  The admission policy shared by the seeder and the main loop
(`admitCandidate`, the two identical blocks at lines 183–190 and 249–256):
a candidate with state `s` and cost `g` is pushed if and only if `g` is
strictly below the cost table's value for `s` (absence counting as
infinity); on admission the tiebreaker is advanced, the entry is pushed,
`nodes_created` is incremented by one, and the table entry for `s` is set to
`g`; consequently a later duplicate for the same state with `g' >= g` is
rejected even before the earlier entry is popped. -/
theorem c5_admission_policy {S : Type} [DecidableEq S] (cfg : Config S)
    (st : LoopState S) (node : SearchNode S) (hv : HVal) :
    (vLT (some node.g) (lookupCost st.state_cost node.state) = true →
      admitCandidate cfg st node hv
        = { st with
            node_tiebreaker := st.node_tiebreaker + 1,
            open_ := cfg.make_open_entry node hv (st.node_tiebreaker + 1) :: st.open_,
            metrics := { st.metrics with
                         nodes_created := st.metrics.nodes_created + 1 },
            state_cost := setCost st.state_cost node.state node.g,
            admitted := (node.state, node.g) :: st.admitted })
    ∧ (vLT (some node.g) (lookupCost st.state_cost node.state) = false →
      admitCandidate cfg st node hv = st)
    ∧ (∀ (node' : SearchNode S) (hv' : HVal),
        vLT (some node.g) (lookupCost st.state_cost node.state) = true →
        node'.state = node.state → node.g ≤ node'.g →
        admitCandidate cfg (admitCandidate cfg st node hv) node' hv'
          = admitCandidate cfg st node hv) := by
  refine ⟨fun h => by simp [admitCandidate, h], fun h => by simp [admitCandidate, h], ?_⟩
  intro node' hv' h hstate hge
  have hfirst : admitCandidate cfg st node hv
      = { st with
          node_tiebreaker := st.node_tiebreaker + 1,
          open_ := cfg.make_open_entry node hv (st.node_tiebreaker + 1) :: st.open_,
          metrics := { st.metrics with
                       nodes_created := st.metrics.nodes_created + 1 },
          state_cost := setCost st.state_cost node.state node.g,
          admitted := (node.state, node.g) :: st.admitted } := by
    simp [admitCandidate, h]
  rw [hfirst]
  have hlook : lookupCost (setCost st.state_cost node.state node.g) node'.state
      = some node.g := by
    rw [hstate]; exact lookupCost_setCost_self _ _ _
  have hcond : vLT (some node'.g)
      (lookupCost (setCost st.state_cost node.state node.g) node'.state) = false := by
    rw [hlook]
    simp [vLT]
    omega
  simp [admitCandidate, hcond]

/-- A witness for C5: admitting a node for `S1` with `g = 1` into the fresh
initial state of the concrete scenario increments `nodes_created` to 2. -/
theorem c5_admission_policy_witness :
    (admitCandidate cfg1 (initialLoopState cfg1) (.child .S1 1 (.root .S0) incOp)
        (some 1)).metrics = ⟨0, 2⟩ := by
  rw [(c5_admission_policy cfg1 (initialLoopState cfg1)
    (.child .S1 1 (.root .S0) incOp) (some 1)).1 rfl]
  rfl

/-- C8.  Relaxed-plan successor filtering (lines 231–242): when relaxed-plan
guidance is on and the relaxed plan for the expanded node is a non-empty
operator-name set, a successor pair `(op, succ_state)` is skipped — the
state is returned unchanged, before any child node is built — iff `op`'s
name is absent from the set; when the name is present, processing is
exactly the unguided successor processing. -/
theorem c8_relaxed_plan_filter {S : Type} [DecidableEq S] (cfg : Config S)
    (l : List String) (pop_node : SearchNode S) (st : LoopState S)
    (op : Operator S) (s' : S)
    (hurp : cfg.use_relaxed_plan = true) (hne : l ≠ []) :
    (l.contains op.name = false →
      processSuccessor cfg (some l) pop_node st (op, s') = st)
    ∧ (l.contains op.name = true →
      processSuccessor cfg (some l) pop_node st (op, s')
        = processSuccessor { cfg with use_relaxed_plan := false } none pop_node st
            (op, s')) := by
  have hempty : l.isEmpty = false := by
    cases l with
    | nil => exact absurd rfl hne
    | cons a as => rfl
  constructor
  · intro hc
    have hmem : op.name ∉ l := by simpa using hc
    simp [processSuccessor, hurp, hempty, hmem]
  · intro hc
    have hmem : op.name ∈ l := by simpa using hc
    simp only [processSuccessor, hurp, hempty]
    rw [show (l.contains op.name) = true from hc]
    simp only [Bool.not_true, Bool.not_false, Bool.and_false, Bool.and_true,
      Bool.true_and, Bool.false_and]
    rfl

/-- A witness for C8: with relaxed plan `["inc"]`, the successor via `jump`
is skipped. -/
theorem c8_relaxed_plan_filter_witness :
    processSuccessor ⟨task1, heur1, ordered_node_astar, true, fun _ => false⟩
        (some ["inc"]) (.root .S0) (initialLoopState cfg1) (jumpOp, .S2)
      = initialLoopState cfg1 :=
  (c8_relaxed_plan_filter ⟨task1, heur1, ordered_node_astar, true, fun _ => false⟩
    ["inc"] (.root .S0) (initialLoopState cfg1) jumpOp .S2 rfl (by simp)).1 rfl

/-- C9.  One partial-plan replay step whose operator name resolves and whose
operator is applicable: if the successor node's heuristic value is finite,
replay continues with the state after the admission attempt and with the
cursor moved to the successor node — whether or not the admission test
succeeded; if the heuristic value is infinite, replay of this candidate
sequence ends, returning the state accumulated so far. -/
theorem c9_replay_advances {S : Type} [DecidableEq S] (cfg : Config S)
    (method : String) (st : LoopState S) (node : SearchNode S) (op_name : String)
    (op : Operator S) (rest : List String)
    (hop : opMapLookup cfg.task.operators op_name = some op)
    (happ : op.applicable node.state = true) :
    (cfg.heuristic.h (make_child_node node op (op.apply node.state)) ≠ none →
      replayPlan cfg method st node (op_name :: rest)
        = replayPlan cfg method
            (admitCandidate cfg st (make_child_node node op (op.apply node.state))
              (cfg.heuristic.h (make_child_node node op (op.apply node.state))))
            (make_child_node node op (op.apply node.state)) rest)
    ∧ (cfg.heuristic.h (make_child_node node op (op.apply node.state)) = none →
      replayPlan cfg method st node (op_name :: rest) = .ok st) := by
  constructor
  · intro hfin
    simp [replayPlan, hop, happ, hfin]
  · intro hinf
    simp [replayPlan, hop, happ, hinf]

/-- A witness for C9: replaying `["inc"]` from the root of the concrete
scenario ends with the successor admitted and the sequence exhausted. -/
theorem c9_replay_advances_witness :
    replayPlan cfg1 "init-queue" (initialLoopState cfg1) (.root .S0) ["inc"]
      = .ok (admitCandidate cfg1 (initialLoopState cfg1)
          (make_child_node (.root .S0) incOp (incOp.apply .S0))
          (cfg1.heuristic.h (make_child_node (.root .S0) incOp (incOp.apply .S0)))) := by
  rw [(c9_replay_advances cfg1 "init-queue" (initialLoopState cfg1) (.root .S0) "inc"
    incOp [] rfl rfl).1 (by decide)]
  rfl

theorem admitCandidate_costInv {S : Type} [DecidableEq S] (cfg : Config S)
    (st : LoopState S) (n : SearchNode S) (hv : HVal)
    (h1 : admittedInTable st) (h2 : costTableIsMinAdmitted st) :
    admittedInTable (admitCandidate cfg st n hv)
      ∧ costTableIsMinAdmitted (admitCandidate cfg st n hv) := by
  by_cases hc : vLT (some n.g) (lookupCost st.state_cost n.state) = true
  · simp only [admitCandidate, hc, if_true]
    constructor
    · intro s g hmem
      rcases List.mem_cons.mp hmem with hh | ht
      · have hs : s = n.state := congrArg Prod.fst hh
        subst hs
        exact ⟨n.g, lookupCost_setCost_self _ _ _⟩
      · obtain ⟨c, hcl⟩ := h1 s g ht
        by_cases hs : s = n.state
        · subst hs
          exact ⟨n.g, lookupCost_setCost_self _ _ _⟩
        · exact ⟨c, (lookupCost_setCost_ne _ _ _ _ hs).trans hcl⟩
    · intro s g hl
      by_cases hs : s = n.state
      · subst hs
        rw [lookupCost_setCost_self] at hl
        have hg : g = n.g := by injection hl with h'; exact h'.symm
        subst hg
        refine ⟨List.mem_cons_self _ _, ?_⟩
        intro g' hg'
        rcases List.mem_cons.mp hg' with hh | ht
        · have : g' = n.g := congrArg Prod.snd hh
          omega
        · cases hold : lookupCost st.state_cost n.state with
          | none =>
            obtain ⟨c, hcl⟩ := h1 n.state g' ht
            rw [hold] at hcl
            exact absurd hcl (by simp)
          | some c =>
            rw [hold] at hc
            have hlt : n.g < c := by
              simpa [vLT] using hc
            have hbound := (h2 n.state c hold).2 g' ht
            omega
      · rw [lookupCost_setCost_ne _ _ _ _ hs] at hl
        obtain ⟨hmem, hbound⟩ := h2 s g hl
        refine ⟨List.mem_cons_of_mem _ hmem, ?_⟩
        intro g' hg'
        rcases List.mem_cons.mp hg' with hh | ht
        · exact absurd (congrArg Prod.fst hh) hs
        · exact hbound g' ht
  · have hc' : vLT (some n.g) (lookupCost st.state_cost n.state) = false := by
      revert hc
      cases vLT (some n.g) (lookupCost st.state_cost n.state) <;> simp
    simp only [admitCandidate, hc', Bool.false_eq_true, if_false]
    exact ⟨h1, h2⟩

theorem processSuccessor_costInv {S : Type} [DecidableEq S] (cfg : Config S)
    (rplan : Option (List String)) (pop_node : SearchNode S) (st : LoopState S)
    (p : Operator S × S)
    (h1 : admittedInTable st) (h2 : costTableIsMinAdmitted st) :
    admittedInTable (processSuccessor cfg rplan pop_node st p)
      ∧ costTableIsMinAdmitted (processSuccessor cfg rplan pop_node st p) := by
  simp only [processSuccessor]
  split
  · exact ⟨h1, h2⟩
  · split
    · exact ⟨h1, h2⟩
    · exact admitCandidate_costInv _ _ _ _ h1 h2

theorem foldl_processSuccessor_costInv {S : Type} [DecidableEq S] (cfg : Config S)
    (rplan : Option (List String)) (pop_node : SearchNode S)
    (l : List (Operator S × S)) :
    ∀ (st : LoopState S), admittedInTable st → costTableIsMinAdmitted st →
      admittedInTable (l.foldl (processSuccessor cfg rplan pop_node) st)
        ∧ costTableIsMinAdmitted (l.foldl (processSuccessor cfg rplan pop_node) st) := by
  induction l with
  | nil => exact fun st h1 h2 => ⟨h1, h2⟩
  | cons p t ih =>
    intro st h1 h2
    obtain ⟨h1', h2'⟩ := processSuccessor_costInv cfg rplan pop_node st p h1 h2
    exact ih _ h1' h2'

theorem costInv_of_fields {S : Type} [DecidableEq S] {st st' : LoopState S}
    (hsc : st'.state_cost = st.state_cost) (had : st'.admitted = st.admitted)
    (h1 : admittedInTable st) (h2 : costTableIsMinAdmitted st) :
    admittedInTable st' ∧ costTableIsMinAdmitted st' := by
  constructor
  · intro s g hm
    rw [had] at hm
    rw [hsc]
    exact h1 s g hm
  · intro s g hl
    rw [hsc] at hl
    obtain ⟨hm, hb⟩ := h2 s g hl
    rw [← had] at hm
    refine ⟨hm, ?_⟩
    intro g' hg'
    rw [had] at hg'
    exact hb g' hg'

theorem loopStep_next_costInv {S : Type} [DecidableEq S] (cfg : Config S)
    {st st' : LoopState S} (hstep : loopStep cfg st = .next st')
    (h1 : admittedInTable st) (h2 : costTableIsMinAdmitted st) :
    admittedInTable st' ∧ costTableIsMinAdmitted st' := by
  unfold loopStep at hstep
  cases hpop : popMin st.open_ with
  | none =>
    rw [hpop] at hstep
    cases hstep
    exact ⟨h1, h2⟩
  | some pr =>
    obtain ⟨e, rest⟩ := pr
    rw [hpop] at hstep
    dsimp only at hstep
    cases hlook : lookupCost st.state_cost e.node.state with
    | none =>
      rw [hlook] at hstep
      cases hstep
    | some c =>
      rw [hlook] at hstep
      dsimp only at hstep
      by_cases hcc : c = e.node.g
      · rw [if_pos hcc] at hstep
        by_cases hgoal : cfg.task.goal_reached e.node.state = true
        · rw [if_pos hgoal] at hstep
          cases hstep
        · rw [if_neg hgoal] at hstep
          cases hstep
          have hbase : admittedInTable (expandBase st e rest)
              ∧ costTableIsMinAdmitted (expandBase st e rest) :=
            costInv_of_fields rfl rfl h1 h2
          have hexp : admittedInTable (expandedState cfg st e rest)
              ∧ costTableIsMinAdmitted (expandedState cfg st e rest) :=
            foldl_processSuccessor_costInv cfg _ e.node _ _ hbase.1 hbase.2
          exact costInv_of_fields rfl rfl hexp.1 hexp.2
      · rw [if_neg hcc] at hstep
        cases hstep
        exact costInv_of_fields rfl rfl h1 h2

theorem replayPlan_costInv {S : Type} [DecidableEq S] (cfg : Config S)
    (method : String) (plan : List String) :
    ∀ (st : LoopState S) (node : SearchNode S) (st' : LoopState S),
      replayPlan cfg method st node plan = .ok st' →
      admittedInTable st → costTableIsMinAdmitted st →
      admittedInTable st' ∧ costTableIsMinAdmitted st' := by
  induction plan with
  | nil =>
    intro st node st' hre h1 h2
    cases hre
    exact ⟨h1, h2⟩
  | cons op_name rest ih =>
    intro st node st' hre h1 h2
    unfold replayPlan at hre
    cases hop : opMapLookup cfg.task.operators op_name with
    | none =>
      rw [hop] at hre
      dsimp only at hre
      by_cases hm1 : method = "init-queue-continue"
      · rw [if_pos hm1] at hre
        exact ih st node st' hre h1 h2
      · rw [if_neg hm1] at hre
        by_cases hm2 : method = "init-queue-break"
        · rw [if_pos hm2] at hre
          cases hre
          exact ⟨h1, h2⟩
        · rw [if_neg hm2] at hre
          cases hre
    | some op =>
      rw [hop] at hre
      dsimp only at hre
      by_cases happ : op.applicable node.state = true
      · rw [if_pos happ] at hre
        by_cases hh : cfg.heuristic.h (make_child_node node op (op.apply node.state))
            = none
        · rw [if_pos hh] at hre
          cases hre
          exact ⟨h1, h2⟩
        · rw [if_neg hh] at hre
          obtain ⟨h1', h2'⟩ := admitCandidate_costInv cfg st
            (make_child_node node op (op.apply node.state))
            (cfg.heuristic.h (make_child_node node op (op.apply node.state))) h1 h2
          exact ih _ _ st' hre h1' h2'
      · rw [if_neg happ] at hre
        by_cases hm1 : method = "init-queue-continue"
        · rw [if_pos hm1] at hre
          exact ih st node st' hre h1 h2
        · rw [if_neg hm1] at hre
          by_cases hm2 : method = "init-queue-break"
          · rw [if_pos hm2] at hre
            cases hre
            exact ⟨h1, h2⟩
          · rw [if_neg hm2] at hre
            cases hre

theorem seedAll_costInv {S : Type} [DecidableEq S] (cfg : Config S) (method : String)
    (root : SearchNode S) (plans : List (List String)) :
    ∀ (st st' : LoopState S), seedAll cfg method root st plans = .ok st' →
      admittedInTable st → costTableIsMinAdmitted st →
      admittedInTable st' ∧ costTableIsMinAdmitted st' := by
  induction plans with
  | nil =>
    intro st st' hse h1 h2
    cases hse
    exact ⟨h1, h2⟩
  | cons p ps ih =>
    intro st st' hse h1 h2
    unfold seedAll at hse
    cases hre : replayPlan cfg method st root p with
    | error msg =>
      rw [hre] at hse
      cases hse
    | ok stm =>
      rw [hre] at hse
      obtain ⟨h1', h2'⟩ := replayPlan_costInv cfg method p st root stm hre h1 h2
      exact ih stm st' hse h1' h2'

theorem initialLoopState_costInv {S : Type} [DecidableEq S] (cfg : Config S) :
    admittedInTable (initialLoopState cfg)
      ∧ costTableIsMinAdmitted (initialLoopState cfg) := by
  constructor
  · intro s g hmem
    have hh : (s, g) = (cfg.task.initial_state, 0) := by
      simpa [initialLoopState] using hmem
    have hs : s = cfg.task.initial_state := congrArg Prod.fst hh
    subst hs
    exact ⟨0, by simp [initialLoopState, lookupCost]⟩
  · intro s g hl
    by_cases hs : s = cfg.task.initial_state
    · subst hs
      simp only [initialLoopState, lookupCost, if_pos rfl] at hl
      have hg : g = 0 := by injection hl with h'; exact h'.symm
      subst hg
      refine ⟨by simp [initialLoopState], ?_⟩
      intro g' hg'
      have hpair : (cfg.task.initial_state, g') = (cfg.task.initial_state, 0) := by
        simpa [initialLoopState] using hg'
      have : g' = 0 := congrArg Prod.snd hpair
      omega
    · simp only [initialLoopState, lookupCost, if_neg hs] at hl
      cases hl

theorem seedPhase_costInv {S : Type} [DecidableEq S] (cfg : Config S)
    (partial_plans : Option (List (List String))) (method : String)
    (st : LoopState S) (hse : seedPhase cfg partial_plans method = .ok st) :
    admittedInTable st ∧ costTableIsMinAdmitted st := by
  unfold seedPhase at hse
  by_cases hm : method = "edit-distance"
  · rw [if_pos hm] at hse
    cases hse
  · rw [if_neg hm] at hse
    cases partial_plans with
    | none =>
      cases hse
      exact initialLoopState_costInv cfg
    | some plans =>
      dsimp only at hse
      by_cases hstr : strContains method "init-queue" = true
      · rw [if_pos hstr] at hse
        obtain ⟨h1, h2⟩ := initialLoopState_costInv cfg
        exact seedAll_costInv cfg method _ plans _ st hse h1 h2
      · rw [if_neg hstr] at hse
        cases hse
        exact initialLoopState_costInv cfg

theorem searchPoint_costInv {S : Type} [DecidableEq S] (cfg : Config S)
    (partial_plans : Option (List (List String))) (method : String)
    (st : LoopState S) (hpt : SearchPoint cfg partial_plans method st) :
    admittedInTable st ∧ costTableIsMinAdmitted st := by
  induction hpt with
  | seeded st h => exact seedPhase_costInv cfg partial_plans method st h
  | stepped st st' h hs ih => exact loopStep_next_costInv cfg hs ih.1 ih.2

/-- C3.  At every point during one search — right after seeding, and after
every loop iteration that continues the search — the cost table holds, for
every state present, the minimum `g` over all SearchNodes ever admitted to
the frontier for that state (the ghost field `admitted` records exactly the
pushes performed by the root push and by the shared admission code). -/
theorem c3_cost_table_min {S : Type} [DecidableEq S] (cfg : Config S)
    (partial_plans : Option (List (List String))) (method : String)
    (st : LoopState S) (hpt : SearchPoint cfg partial_plans method st) :
    costTableIsMinAdmitted st :=
  (searchPoint_costInv cfg partial_plans method st hpt).2

/-- A witness for C3: at the search point right after (trivial) seeding of
the concrete scenario, the cost table's entry 0 for `S0` is an admitted
cost. -/
theorem c3_cost_table_min_witness :
    (S3.S0, 0) ∈ (initialLoopState cfg1).admitted :=
  ((c3_cost_table_min cfg1 none "init-queue" (initialLoopState cfg1)
    (SearchPoint.seeded (initialLoopState cfg1) rfl)) S3.S0 0 rfl).1

theorem popMin_eq_none {S : Type} (l : List (Entry S)) : popMin l = none ↔ l = [] := by
  cases l with
  | nil => simp [popMin]
  | cons a as =>
    constructor
    · intro h
      unfold popMin at h
      cases hp : popMin as with
      | none =>
        rw [hp] at h
        cases h
      | some pr =>
        obtain ⟨m, rest⟩ := pr
        rw [hp] at h
        dsimp only at h
        by_cases hk : keyLT m a = true
        · rw [if_pos hk] at h
          cases h
        · rw [if_neg hk] at h
          cases h
    · intro h
      cases h

theorem popMin_perm {S : Type} (l : List (Entry S)) (e : Entry S)
    (rest : List (Entry S)) (h : popMin l = some (e, rest)) :
    l.Perm (e :: rest) := by
  induction l generalizing e rest with
  | nil => cases h
  | cons a as ih =>
    unfold popMin at h
    cases hp : popMin as with
    | none =>
      rw [hp] at h
      have has : as = [] := (popMin_eq_none as).mp hp
      subst has
      cases h
      exact List.Perm.refl _
    | some pr =>
      obtain ⟨m, rest'⟩ := pr
      rw [hp] at h
      dsimp only at h
      by_cases hk : keyLT m a = true
      · rw [if_pos hk] at h
        have h2 := Option.some.inj h
        have he : m = e := congrArg Prod.fst h2
        have hr : a :: rest' = rest := congrArg Prod.snd h2
        subst he
        subst hr
        exact ((ih _ _ hp).cons a).trans (List.Perm.swap _ a rest')
      · rw [if_neg hk] at h
        cases h
        exact List.Perm.refl _

theorem length_filter_mono {α : Type} (p q : α → Bool) (l : List α)
    (h : ∀ x ∈ l, q x = true → p x = true) :
    (l.filter q).length ≤ (l.filter p).length := by
  induction l with
  | nil => simp
  | cons b t ih =>
    have ih' := ih (fun x hx => h x (List.mem_cons_of_mem _ hx))
    rw [List.filter_cons, List.filter_cons]
    by_cases hq : q b = true
    · rw [hq, h b (List.mem_cons_self _ _) hq]
      simpa using ih'
    · have hq' : q b = false := by revert hq; cases q b <;> simp
      rw [hq']
      by_cases hp : p b = true
      · rw [hp]
        simp only [if_true, List.length_cons, Bool.false_eq_true, if_false]
        omega
      · have hp' : p b = false := by revert hp; cases p b <;> simp
        rw [hp']
        simpa using ih'

theorem length_filter_strict {α : Type} (p q : α → Bool) (l : List α)
    (h : ∀ x ∈ l, q x = true → p x = true) (a : α) (ha : a ∈ l)
    (hpa : p a = true) (hqa : q a = false) :
    (l.filter q).length < (l.filter p).length := by
  induction l with
  | nil => cases ha
  | cons b t ih =>
    rw [List.filter_cons, List.filter_cons]
    rcases List.mem_cons.mp ha with hab | hat
    · subst hab
      rw [hpa, hqa]
      have := length_filter_mono p q t (fun x hx => h x (List.mem_cons_of_mem _ hx))
      simp only [if_true, Bool.false_eq_true, if_false, List.length_cons]
      omega
    · have iht := ih (fun x hx => h x (List.mem_cons_of_mem _ hx)) hat
      by_cases hqb : q b = true
      · rw [hqb, h b (List.mem_cons_self _ _) hqb]
        simp only [if_true, List.length_cons]
        omega
      · have hqb' : q b = false := by revert hqb; cases q b <;> simp
        rw [hqb']
        by_cases hpb : p b = true
        · rw [hpb]
          simp only [if_true, Bool.false_eq_true, if_false, List.length_cons]
          omega
        · have hpb' : p b = false := by revert hpb; cases p b <;> simp
          rw [hpb']
          simpa using iht

theorem tableSum_filter_le {S : Type} [DecidableEq S] (t : List (S × Nat)) (s : S) :
    tableSum (t.filter (fun p => decide (p.1 ≠ s))) ≤ tableSum t := by
  induction t with
  | nil => simp [tableSum]
  | cons p t ih =>
    rw [List.filter_cons]
    by_cases hp : decide (p.1 ≠ s) = true
    · rw [hp]
      simp only [if_true, tableSum, List.map_cons, List.sum_cons]
      simp only [tableSum] at ih
      omega
    · have hp' : decide (p.1 ≠ s) = false := by revert hp; cases decide (p.1 ≠ s) <;> simp
      rw [hp']
      simp only [Bool.false_eq_true, if_false]
      simp only [tableSum, List.map_cons, List.sum_cons]
      simp only [tableSum] at ih
      omega

theorem tableSum_lookup_le {S : Type} [DecidableEq S] (t : List (S × Nat)) (s : S)
    (c : Nat) (h : lookupCost t s = some c) :
    c + tableSum (t.filter (fun p => decide (p.1 ≠ s))) ≤ tableSum t := by
  induction t with
  | nil => cases h
  | cons p t ih =>
    obtain ⟨p1, p2⟩ := p
    rw [List.filter_cons]
    simp only [lookupCost] at h
    by_cases hs : s = p1
    · rw [if_pos hs] at h
      have hc : c = p2 := by injection h with h'; exact h'.symm
      have hd : decide (((p1, p2) : S × Nat).1 ≠ s) = false := by simp [hs]
      rw [hd]
      simp only [Bool.false_eq_true, if_false, tableSum, List.map_cons, List.sum_cons]
      have := tableSum_filter_le t s
      simp only [tableSum] at this ⊢
      omega
    · rw [if_neg hs] at h
      have iht := ih h
      by_cases hd : decide (((p1, p2) : S × Nat).1 ≠ s) = true
      · rw [hd]
        simp only [if_true, tableSum, List.map_cons, List.sum_cons]
        simp only [tableSum] at iht
        omega
      · have hd' : decide (((p1, p2) : S × Nat).1 ≠ s) = false := by
          revert hd; cases decide (((p1, p2) : S × Nat).1 ≠ s) <;> simp
        have : p1 = s := by simpa using hd'
        exact absurd this.symm hs

theorem tableSum_setCost_lt {S : Type} [DecidableEq S] (t : List (S × Nat)) (s : S)
    (c g : Nat) (h : lookupCost t s = some c) (hg : g < c) :
    tableSum (setCost t s g) < tableSum t := by
  have h1 := tableSum_lookup_le t s c h
  simp only [setCost, tableSum, List.map_cons, List.sum_cons]
  simp only [tableSum] at h1
  omega

theorem countNotIn_setCost_existing {S : Type} [DecidableEq S] (R : List S)
    (t : List (S × Nat)) (s : S) (g c : Nat) (h : lookupCost t s = some c) :
    countNotIn R (setCost t s g) = countNotIn R t := by
  unfold countNotIn
  congr 1
  apply List.filter_congr
  intro x _
  by_cases hxs : x = s
  · subst hxs
    rw [lookupCost_setCost_self, h]
    rfl
  · rw [lookupCost_setCost_ne _ _ _ _ hxs]

theorem countNotIn_setCost_new {S : Type} [DecidableEq S] (R : List S)
    (t : List (S × Nat)) (s : S) (g : Nat) (h : lookupCost t s = none) (hs : s ∈ R) :
    countNotIn R (setCost t s g) < countNotIn R t := by
  unfold countNotIn
  apply length_filter_strict
  · intro x _ hq
    by_cases hxs : x = s
    · subst hxs
      rw [lookupCost_setCost_self] at hq
      cases hq
    · rwa [lookupCost_setCost_ne _ _ _ _ hxs] at hq
  · exact hs
  · rw [h]
    rfl
  · rw [lookupCost_setCost_self]
    rfl

theorem abLt_trans {a b c : Nat × Nat} (h1 : abLt a b) (h2 : abLt b c) : abLt a c := by
  rcases h1 with h1 | ⟨h1a, h1b⟩ <;> rcases h2 with h2 | ⟨h2a, h2b⟩ <;>
    unfold abLt <;> omega

theorem make_child_node_state {S : Type} (parent : SearchNode S) (op : Operator S)
    (s : S) : (make_child_node parent op s).state = s := rfl

theorem ordered_node_astar_node {S : Type} (n : SearchNode S) (hv : HVal) (t : Nat) :
    (ordered_node_astar n hv t).node = n := rfl

theorem vLT_false_some {g : Nat} {o : Option Nat}
    (h : vLT (some g) o = false) : ∃ c, o = some c ∧ c ≤ g := by
  cases o with
  | none => cases h
  | some c =>
    refine ⟨c, rfl, ?_⟩
    simp only [vLT, decide_eq_false_iff_not] at h
    omega

theorem admitCandidate_closed {S : Type} [DecidableEq S] (cfg : Config S)
    (st : LoopState S) (n : SearchNode S) (hv : HVal) :
    (admitCandidate cfg st n hv).closed = st.closed := by
  unfold admitCandidate
  split <;> rfl

theorem admitCandidate_open_mono {S : Type} [DecidableEq S] (cfg : Config S)
    (st : LoopState S) (n : SearchNode S) (hv : HVal) (e : Entry S)
    (he : e ∈ st.open_) : e ∈ (admitCandidate cfg st n hv).open_ := by
  unfold admitCandidate
  split
  · exact List.mem_cons_of_mem _ he
  · exact he

theorem admitCandidate_mem_mono {S : Type} [DecidableEq S] (cfg : Config S)
    (st : LoopState S) (n : SearchNode S) (hv : HVal) (x : S)
    (h : ∃ c, lookupCost st.state_cost x = some c) :
    ∃ c, lookupCost (admitCandidate cfg st n hv).state_cost x = some c := by
  obtain ⟨c, hc⟩ := h
  unfold admitCandidate
  split
  · by_cases hx : x = n.state
    · subst hx
      exact ⟨n.g, lookupCost_setCost_self _ _ _⟩
    · exact ⟨c, by rw [lookupCost_setCost_ne _ _ _ _ hx]; exact hc⟩
  · exact ⟨c, hc⟩

theorem admit_ExhInvE {S : Type} [DecidableEq S] {cfg : Config S} {st : LoopState S}
    {s0 : S} (n : SearchNode S) (hv : HVal)
    (hmk : ∀ (m : SearchNode S) (h : HVal) (t : Nat), (cfg.make_open_entry m h t).node = m)
    (hn : ReachableState cfg.task n.state)
    (hinv : ExhInvE cfg st s0) : ExhInvE cfg (admitCandidate cfg st n hv) s0 := by
  by_cases hcond : vLT (some n.g) (lookupCost st.state_cost n.state) = true
  · simp only [admitCandidate, hcond, if_true]
    constructor
    · obtain ⟨c, hc⟩ := hinv.init_mem
      by_cases hx : cfg.task.initial_state = n.state
      · exact ⟨n.g, by rw [hx]; exact lookupCost_setCost_self _ _ _⟩
      · exact ⟨c, by rw [lookupCost_setCost_ne _ _ _ _ hx]; exact hc⟩
    · intro s g hl
      by_cases hx : s = n.state
      · subst hx
        exact hn
      · rw [lookupCost_setCost_ne _ _ _ _ hx] at hl
        exact hinv.table_reach s g hl
    · intro e he
      rcases List.mem_cons.mp he with he1 | he2
      · subst he1
        rw [hmk]
        exact ⟨n.g, lookupCost_setCost_self _ _ _, Nat.le_refl _⟩
      · obtain ⟨c, hc, hle⟩ := hinv.open_table e he2
        by_cases hx : e.node.state = n.state
        · refine ⟨n.g, by rw [hx]; exact lookupCost_setCost_self _ _ _, ?_⟩
          rw [hx] at hc
          rw [hc] at hcond
          have : n.g < c := by simpa [vLT] using hcond
          omega
        · exact ⟨c, by rw [lookupCost_setCost_ne _ _ _ _ hx]; exact hc, hle⟩
    · intro s hs
      by_cases hx : s = n.state
      · subst hx
        right; left
        refine ⟨cfg.make_open_entry n hv (st.node_tiebreaker + 1),
          List.mem_cons_self _ _, ?_, ?_⟩
        · rw [hmk]
        · rw [hmk]
          exact lookupCost_setCost_self _ _ _
      · have hs' : ∃ g, lookupCost st.state_cost s = some g := by
          obtain ⟨g, hg⟩ := hs
          rw [lookupCost_setCost_ne _ _ _ _ hx] at hg
          exact ⟨g, hg⟩
        rcases hinv.live_or_closed_e s hs' with h0 | hlive | hcov
        · exact Or.inl h0
        · right; left
          obtain ⟨e, he, hes, heg⟩ := hlive
          exact ⟨e, List.mem_cons_of_mem _ he, hes,
            by rw [lookupCost_setCost_ne _ _ _ _ hx]; exact heg⟩
        · right; right
          refine ⟨hcov.1, ?_⟩
          intro p hp
          obtain ⟨c, hc⟩ := hcov.2 p hp
          by_cases hpx : p.2 = n.state
          · exact ⟨n.g, by rw [hpx]; exact lookupCost_setCost_self _ _ _⟩
          · exact ⟨c, by rw [lookupCost_setCost_ne _ _ _ _ hpx]; exact hc⟩
    · intro s hsc
      obtain ⟨c, hc⟩ := hinv.closed_table s hsc
      by_cases hx : s = n.state
      · exact ⟨n.g, by rw [hx]; exact lookupCost_setCost_self _ _ _⟩
      · exact ⟨c, by rw [lookupCost_setCost_ne _ _ _ _ hx]; exact hc⟩
    · exact hinv.popped_closed
  · have hcond' : vLT (some n.g) (lookupCost st.state_cost n.state) = false := by
      revert hcond
      cases vLT (some n.g) (lookupCost st.state_cost n.state) <;> simp
    simp only [admitCandidate, hcond', Bool.false_eq_true, if_false]
    exact hinv

theorem admit_measure {S : Type} [DecidableEq S] (cfg : Config S) (R : List S)
    (st : LoopState S) (n : SearchNode S) (hv : HVal) (hnR : n.state ∈ R) :
    admitCandidate cfg st n hv = st ∨
      abLt (abMeasure R (admitCandidate cfg st n hv)) (abMeasure R st) := by
  by_cases hcond : vLT (some n.g) (lookupCost st.state_cost n.state) = true
  · right
    simp only [admitCandidate, hcond, if_true]
    cases hold : lookupCost st.state_cost n.state with
    | none =>
      left
      exact countNotIn_setCost_new R _ _ _ hold hnR
    | some c =>
      right
      constructor
      · exact countNotIn_setCost_existing R _ _ _ _ hold
      · rw [hold] at hcond
        have : n.g < c := by simpa [vLT] using hcond
        exact tableSum_setCost_lt _ _ _ _ hold this
  · left
    have hcond' : vLT (some n.g) (lookupCost st.state_cost n.state) = false := by
      revert hcond
      cases vLT (some n.g) (lookupCost st.state_cost n.state) <;> simp
    simp [admitCandidate, hcond']

theorem procSucc_eq {S : Type} [DecidableEq S] (cfg : Config S)
    (hurp : cfg.use_relaxed_plan = false) (rplan : Option (List String))
    (pop_node : SearchNode S) (st : LoopState S) (p : Operator S × S) :
    processSuccessor cfg rplan pop_node st p
      = if cfg.heuristic.h (make_child_node pop_node p.1 p.2) = none then st
        else admitCandidate cfg st (make_child_node pop_node p.1 p.2)
            (cfg.heuristic.h (make_child_node pop_node p.1 p.2)) := by
  simp [processSuccessor, hurp]

theorem procSucc_ExhInvE {S : Type} [DecidableEq S] {cfg : Config S}
    {st : LoopState S} {s0 : S} (rplan : Option (List String))
    (pop_node : SearchNode S) (p : Operator S × S)
    (hurp : cfg.use_relaxed_plan = false)
    (hmk : ∀ (m : SearchNode S) (h : HVal) (t : Nat), (cfg.make_open_entry m h t).node = m)
    (hp2 : ReachableState cfg.task p.2)
    (hinv : ExhInvE cfg st s0) :
    ExhInvE cfg (processSuccessor cfg rplan pop_node st p) s0 := by
  rw [procSucc_eq cfg hurp]
  split
  · exact hinv
  · exact admit_ExhInvE _ _ hmk hp2 hinv

theorem procSucc_measure {S : Type} [DecidableEq S] (cfg : Config S) (R : List S)
    (rplan : Option (List String)) (pop_node : SearchNode S) (st : LoopState S)
    (p : Operator S × S) (hurp : cfg.use_relaxed_plan = false) (hp2R : p.2 ∈ R) :
    processSuccessor cfg rplan pop_node st p = st ∨
      abLt (abMeasure R (processSuccessor cfg rplan pop_node st p)) (abMeasure R st) := by
  rw [procSucc_eq cfg hurp]
  split
  · exact Or.inl rfl
  · exact admit_measure cfg R st _ _ hp2R

theorem procSucc_mem_mono {S : Type} [DecidableEq S] (cfg : Config S)
    (rplan : Option (List String)) (pop_node : SearchNode S) (st : LoopState S)
    (p : Operator S × S) (hurp : cfg.use_relaxed_plan = false) (x : S)
    (h : ∃ c, lookupCost st.state_cost x = some c) :
    ∃ c, lookupCost (processSuccessor cfg rplan pop_node st p).state_cost x = some c := by
  rw [procSucc_eq cfg hurp]
  split
  · exact h
  · exact admitCandidate_mem_mono cfg st _ _ x h

theorem procSucc_covers {S : Type} [DecidableEq S] (cfg : Config S)
    (rplan : Option (List String)) (pop_node : SearchNode S) (st : LoopState S)
    (p : Operator S × S) (hurp : cfg.use_relaxed_plan = false)
    (hh : ∀ n : SearchNode S, ReachableState cfg.task n.state → cfg.heuristic.h n ≠ none)
    (hp2 : ReachableState cfg.task p.2) :
    ∃ c, lookupCost (processSuccessor cfg rplan pop_node st p).state_cost p.2 = some c := by
  rw [procSucc_eq cfg hurp]
  have hfin : cfg.heuristic.h (make_child_node pop_node p.1 p.2) ≠ none :=
    hh (make_child_node pop_node p.1 p.2) hp2
  rw [if_neg hfin]
  by_cases hcond : vLT (some (make_child_node pop_node p.1 p.2).g)
      (lookupCost st.state_cost (make_child_node pop_node p.1 p.2).state) = true
  · simp only [admitCandidate, hcond, if_true]
    exact ⟨(make_child_node pop_node p.1 p.2).g,
      by rw [show p.2 = (make_child_node pop_node p.1 p.2).state from rfl]
         exact lookupCost_setCost_self _ _ _⟩
  · have hcond' : vLT (some (make_child_node pop_node p.1 p.2).g)
        (lookupCost st.state_cost (make_child_node pop_node p.1 p.2).state) = false := by
      revert hcond
      cases vLT (some (make_child_node pop_node p.1 p.2).g)
        (lookupCost st.state_cost (make_child_node pop_node p.1 p.2).state) <;> simp
    simp only [admitCandidate, hcond', Bool.false_eq_true, if_false]
    obtain ⟨c, hc, _⟩ := vLT_false_some hcond'
    exact ⟨c, hc⟩

theorem fold_ExhInvE {S : Type} [DecidableEq S] {cfg : Config S} {s0 : S}
    (rplan : Option (List String)) (pop_node : SearchNode S)
    (l : List (Operator S × S))
    (hurp : cfg.use_relaxed_plan = false)
    (hmk : ∀ (m : SearchNode S) (h : HVal) (t : Nat), (cfg.make_open_entry m h t).node = m)
    (hreach : ∀ p ∈ l, ReachableState cfg.task p.2) :
    ∀ st : LoopState S, ExhInvE cfg st s0 →
      ExhInvE cfg (l.foldl (processSuccessor cfg rplan pop_node) st) s0 := by
  induction l with
  | nil => exact fun st h => h
  | cons q t ih =>
    intro st hinv
    rw [List.foldl_cons]
    exact ih (fun p hp => hreach p (List.mem_cons_of_mem _ hp)) _
      (procSucc_ExhInvE rplan pop_node q hurp hmk
        (hreach q (List.mem_cons_self _ _)) hinv)

theorem fold_mem_mono {S : Type} [DecidableEq S] (cfg : Config S)
    (rplan : Option (List String)) (pop_node : SearchNode S)
    (l : List (Operator S × S)) (hurp : cfg.use_relaxed_plan = false) :
    ∀ (st : LoopState S) (x : S), (∃ c, lookupCost st.state_cost x = some c) →
      ∃ c, lookupCost ((l.foldl (processSuccessor cfg rplan pop_node) st)).state_cost x
        = some c := by
  induction l with
  | nil => exact fun st x h => h
  | cons q t ih =>
    intro st x h
    rw [List.foldl_cons]
    exact ih _ x (procSucc_mem_mono cfg rplan pop_node st q hurp x h)

theorem fold_closed {S : Type} [DecidableEq S] (cfg : Config S)
    (rplan : Option (List String)) (pop_node : SearchNode S)
    (l : List (Operator S × S)) (hurp : cfg.use_relaxed_plan = false) :
    ∀ st : LoopState S,
      (l.foldl (processSuccessor cfg rplan pop_node) st).closed = st.closed := by
  induction l with
  | nil => exact fun st => rfl
  | cons q t ih =>
    intro st
    rw [List.foldl_cons, ih]
    rw [procSucc_eq cfg hurp]
    split
    · rfl
    · exact admitCandidate_closed cfg st _ _

theorem fold_covers {S : Type} [DecidableEq S] (cfg : Config S)
    (rplan : Option (List String)) (pop_node : SearchNode S)
    (l : List (Operator S × S)) (hurp : cfg.use_relaxed_plan = false)
    (hh : ∀ n : SearchNode S, ReachableState cfg.task n.state → cfg.heuristic.h n ≠ none)
    (hreach : ∀ p ∈ l, ReachableState cfg.task p.2) :
    ∀ (st : LoopState S) (p : Operator S × S), p ∈ l →
      ∃ c, lookupCost ((l.foldl (processSuccessor cfg rplan pop_node) st)).state_cost p.2
        = some c := by
  induction l with
  | nil =>
    intro st p hp
    cases hp
  | cons q t ih =>
    intro st p hp
    rw [List.foldl_cons]
    rcases List.mem_cons.mp hp with hpq | hpt
    · subst hpq
      exact fold_mem_mono cfg rplan pop_node t hurp _ p.2
        (procSucc_covers cfg rplan pop_node st p hurp hh
          (hreach p (List.mem_cons_self _ _)))
    · exact ih (fun r hr => hreach r (List.mem_cons_of_mem _ hr)) _ p hpt

theorem fold_measure {S : Type} [DecidableEq S] (cfg : Config S) (R : List S)
    (rplan : Option (List String)) (pop_node : SearchNode S)
    (l : List (Operator S × S)) (hurp : cfg.use_relaxed_plan = false)
    (hreach2 : ∀ p ∈ l, p.2 ∈ R) :
    ∀ st : LoopState S,
      (abMeasure R (l.foldl (processSuccessor cfg rplan pop_node) st) = abMeasure R st
        ∧ (l.foldl (processSuccessor cfg rplan pop_node) st).open_ = st.open_)
      ∨ abLt (abMeasure R (l.foldl (processSuccessor cfg rplan pop_node) st))
          (abMeasure R st) := by
  induction l with
  | nil => exact fun st => Or.inl ⟨rfl, rfl⟩
  | cons q t ih =>
    intro st
    rw [List.foldl_cons]
    rcases procSucc_measure cfg R rplan pop_node st q hurp
        (hreach2 q (List.mem_cons_self _ _)) with heq | hlt
    · rw [heq]
      exact ih (fun r hr => hreach2 r (List.mem_cons_of_mem _ hr)) st
    · rcases ih (fun r hr => hreach2 r (List.mem_cons_of_mem _ hr))
          (processSuccessor cfg rplan pop_node st q) with ⟨hab, _⟩ | hlt2
      · exact Or.inr (hab ▸ hlt)
      · exact Or.inr (abLt_trans hlt2 hlt)

theorem expandBase_ExhInvE {S : Type} [DecidableEq S] {cfg : Config S}
    {st : LoopState S} {e : Entry S} {rest : List (Entry S)}
    (hinv : ExhInv cfg st) (hpop : popMin st.open_ = some (e, rest))
    (hlook : lookupCost st.state_cost e.node.state = some e.node.g) :
    ExhInvE cfg (expandBase st e rest) e.node.state := by
  have hperm := popMin_perm _ _ _ hpop
  constructor
  · exact hinv.init_mem
  · exact hinv.table_reach
  · intro e' he'
    exact hinv.open_table e' (hperm.mem_iff.mpr (List.mem_cons_of_mem _ he'))
  · intro s hs
    rcases hinv.live_or_closed s hs with hlive | hcov
    · obtain ⟨e', he', hes, heg⟩ := hlive
      rcases List.mem_cons.mp (hperm.mem_iff.mp he') with he1 | he2
      · left
        rw [← hes, he1]
      · right; left
        exact ⟨e', he2, hes, heg⟩
    · right; right
      exact ⟨List.mem_cons_of_mem _ hcov.1, hcov.2⟩
  · intro s hsc
    rcases List.mem_cons.mp hsc with h1 | h2
    · exact ⟨e.node.g, by rw [h1]; exact hlook⟩
    · exact hinv.closed_table s h2
  · exact List.mem_cons_self _ _

theorem skip_ExhInv {S : Type} [DecidableEq S] {cfg : Config S}
    {st : LoopState S} {e : Entry S} {rest : List (Entry S)} {c : Nat}
    (hinv : ExhInv cfg st) (hpop : popMin st.open_ = some (e, rest))
    (hlook : lookupCost st.state_cost e.node.state = some c)
    (hcc : c ≠ e.node.g) :
    ExhInv cfg (skipState st e rest) := by
  have hperm := popMin_perm _ _ _ hpop
  constructor
  · exact hinv.init_mem
  · exact hinv.table_reach
  · intro e' he'
    exact hinv.open_table e' (hperm.mem_iff.mpr (List.mem_cons_of_mem _ he'))
  · intro s hs
    rcases hinv.live_or_closed s hs with hlive | hcov
    · obtain ⟨e', he', hes, heg⟩ := hlive
      rcases List.mem_cons.mp (hperm.mem_iff.mp he') with he1 | he2
      · exfalso
        rw [he1] at hes heg
        rw [← hes] at heg
        rw [hlook] at heg
        exact hcc (Option.some.inj heg)
      · exact Or.inl ⟨e', he2, hes, heg⟩
    · exact Or.inr hcov
  · exact hinv.closed_table

theorem exh_of_expand_end {S : Type} [DecidableEq S] {cfg : Config S}
    {stf : LoopState S} {s0 : S}
    (hinvE : ExhInvE cfg stf s0)
    (hcov : ∀ p ∈ cfg.task.get_successor_states s0,
      ∃ c, lookupCost stf.state_cost p.2 = some c) :
    ExhInv cfg { stf with counter := stf.counter + 1 } := by
  constructor
  · exact hinvE.init_mem
  · exact hinvE.table_reach
  · exact hinvE.open_table
  · intro s hs
    rcases hinvE.live_or_closed_e s hs with h0 | hlive | hcovd
    · right
      rw [h0]
      exact ⟨hinvE.popped_closed, hcov⟩
    · exact Or.inl hlive
    · exact Or.inr hcovd
  · exact hinvE.closed_table

theorem loopStep_exh {S : Type} [DecidableEq S] (cfg : Config S) (R : List S)
    (hurp : cfg.use_relaxed_plan = false)
    (hmk : ∀ (m : SearchNode S) (h : HVal) (t : Nat), (cfg.make_open_entry m h t).node = m)
    (hh : ∀ n : SearchNode S, ReachableState cfg.task n.state → cfg.heuristic.h n ≠ none)
    (hg : ∀ s, ReachableState cfg.task s → cfg.task.goal_reached s = false)
    (hR : ∀ s, ReachableState cfg.task s ↔ s ∈ R)
    {st : LoopState S}
    (hinv : ExhInv cfg st) (hne : st.open_ ≠ []) :
    ∃ st', loopStep cfg st = .next st' ∧ ExhInv cfg st' ∧
      (abLt (abMeasure R st') (abMeasure R st) ∨
        (abMeasure R st' = abMeasure R st ∧ st'.open_.length < st.open_.length)) := by
  cases hpop : popMin st.open_ with
  | none => exact absurd ((popMin_eq_none _).mp hpop) hne
  | some pr =>
    obtain ⟨e, rest⟩ := pr
    have hperm := popMin_perm _ _ _ hpop
    have hemem : e ∈ st.open_ := hperm.mem_iff.mpr (List.mem_cons_self _ _)
    obtain ⟨c, hlook, hle⟩ := hinv.open_table e hemem
    have hlen : st.open_.length = rest.length + 1 := by
      have := hperm.length_eq
      simpa using this
    have hreach0 : ReachableState cfg.task e.node.state := hinv.table_reach _ _ hlook
    by_cases hcc : c = e.node.g
    · subst hcc
      have hgoalf : cfg.task.goal_reached e.node.state = false := hg _ hreach0
      have hsreach : ∀ p ∈ cfg.task.get_successor_states e.node.state,
          ReachableState cfg.task p.2 := by
        intro p hp
        exact ReachableState.succ _ _ p.1 hreach0 hp
      have hbase := expandBase_ExhInvE hinv hpop hlook
      have hfold := fold_ExhInvE (rplanOf cfg e.node.state) e.node _ hurp hmk hsreach
        (expandBase st e rest) hbase
      have hcov := fold_covers cfg (rplanOf cfg e.node.state) e.node _ hurp hh hsreach
        (expandBase st e rest)
      refine ⟨{ expandedState cfg st e rest with
                counter := (expandedState cfg st e rest).counter + 1 }, ?_, ?_, ?_⟩
      · simp only [loopStep, hpop, hlook, if_true]
        rw [if_neg (by simp [hgoalf])]
      · exact exh_of_expand_end hfold (fun p hp => hcov p hp)
      · rcases fold_measure cfg R (rplanOf cfg e.node.state) e.node _ hurp
            (fun p hp => (hR p.2).mp (hsreach p hp)) (expandBase st e rest) with
          ⟨hab, hopeneq⟩ | hlt
        · right
          refine ⟨hab, ?_⟩
          have h2 : (expandedState cfg st e rest).open_ = rest := hopeneq
          show (expandedState cfg st e rest).open_.length < st.open_.length
          rw [h2, hlen]
          omega
        · exact Or.inl hlt
    · refine ⟨skipState st e rest, ?_, ?_, ?_⟩
      · simp only [loopStep, hpop, hlook]
        rw [if_neg hcc]
      · exact skip_ExhInv hinv hpop hlook hcc
      · right
        refine ⟨rfl, ?_⟩
        show rest.length < st.open_.length
        rw [hlen]
        omega

theorem runLoop_exh_aux {S : Type} [DecidableEq S] (cfg : Config S) (R : List S)
    (hurp : cfg.use_relaxed_plan = false)
    (hmk : ∀ (m : SearchNode S) (h : HVal) (t : Nat), (cfg.make_open_entry m h t).node = m)
    (hh : ∀ n : SearchNode S, ReachableState cfg.task n.state → cfg.heuristic.h n ≠ none)
    (hg : ∀ s, ReachableState cfg.task s → cfg.task.goal_reached s = false)
    (hR : ∀ s, ReachableState cfg.task s ↔ s ∈ R)
    (hclock : ∀ i, cfg.clock i = false) :
    ∀ (A B C : Nat) (st : LoopState S) (i : Nat),
      countNotIn R st.state_cost = A → tableSum st.state_cost = B →
      st.open_.length = C → ExhInv cfg st →
      ∃ fuel fin, runLoop cfg fuel i st = .ok (.finished none fin.metrics, fin)
        ∧ fin.open_ = [] ∧ ExhInv cfg fin := by
  intro A
  induction A using Nat.strong_induction_on with
  | _ A ihA =>
    intro B
    induction B using Nat.strong_induction_on with
    | _ B ihB =>
      intro C
      induction C using Nat.strong_induction_on with
      | _ C ihC =>
        intro st i hA hB hC hinv
        by_cases hopen : st.open_ = []
        · refine ⟨0, st, ?_, hopen, hinv⟩
          rw [runLoop_zero]
          rw [if_pos (by rw [hopen]; rfl)]
        · obtain ⟨st', hstep, hinv', hdec⟩ :=
            loopStep_exh cfg R hurp hmk hh hg hR hinv hopen
          have hbe : st.open_.isEmpty = false := by
            cases hcase : st.open_ with
            | nil => exact absurd hcase hopen
            | cons a as => rfl
          have hrun1 : ∀ fuel, runLoop cfg (fuel + 1) i st = runLoop cfg fuel (i + 1) st' := by
            intro fuel
            rw [runLoop_succ, hbe, hclock i, hstep]
            simp only [Bool.false_eq_true, if_false]
          rcases hdec with hab | ⟨habeq, hlen⟩
          · rcases hab with hA' | ⟨hAeq, hB'⟩
            · obtain ⟨fuel, fin, hrun, hfin, hinvfin⟩ :=
                ihA (countNotIn R st'.state_cost) (by rw [← hA]; exact hA')
                  (tableSum st'.state_cost) (st'.open_.length) st' (i + 1)
                  rfl rfl rfl hinv'
              exact ⟨fuel + 1, fin, by rw [hrun1 fuel]; exact hrun, hfin, hinvfin⟩
            · obtain ⟨fuel, fin, hrun, hfin, hinvfin⟩ :=
                ihB (tableSum st'.state_cost) (by rw [← hB]; exact hB')
                  (st'.open_.length) st' (i + 1)
                  (by rw [← hA]; exact hAeq) rfl rfl hinv'
              exact ⟨fuel + 1, fin, by rw [hrun1 fuel]; exact hrun, hfin, hinvfin⟩
          · obtain ⟨fuel, fin, hrun, hfin, hinvfin⟩ :=
              ihC (st'.open_.length) (by rw [← hC]; exact hlen) st' (i + 1)
                (by rw [← hA]; exact congrArg Prod.fst habeq)
                (by rw [← hB]; exact congrArg Prod.snd habeq) rfl hinv'
            exact ⟨fuel + 1, fin, by rw [hrun1 fuel]; exact hrun, hfin, hinvfin⟩

theorem exh_terminal {S : Type} [DecidableEq S] (cfg : Config S) {fin : LoopState S}
    (hfin_open : fin.open_ = []) (hinv : ExhInv cfg fin) :
    ∀ s, s ∈ fin.closed ↔ ReachableState cfg.task s := by
  have htab : ∀ s, ReachableState cfg.task s →
      ∃ c, lookupCost fin.state_cost s = some c := by
    intro s hs
    induction hs with
    | init => exact hinv.init_mem
    | succ s s' op hs hmem ih =>
      rcases hinv.live_or_closed s ih with hlive | hcov
      · obtain ⟨e, he, _, _⟩ := hlive
        rw [hfin_open] at he
        cases he
      · exact hcov.2 (op, s') hmem
  intro s
  constructor
  · intro hs
    obtain ⟨c, hc⟩ := hinv.closed_table s hs
    exact hinv.table_reach s c hc
  · intro hs
    obtain ⟨c, hc⟩ := htab s hs
    rcases hinv.live_or_closed s ⟨c, hc⟩ with hlive | hcov
    · obtain ⟨e, he, _, _⟩ := hlive
      rw [hfin_open] at he
      cases he
    · exact hcov.1

theorem initial_ExhInv {S : Type} [DecidableEq S] (cfg : Config S)
    (hmk : ∀ (m : SearchNode S) (h : HVal) (t : Nat), (cfg.make_open_entry m h t).node = m) :
    ExhInv cfg (initialLoopState cfg) := by
  constructor
  · exact ⟨0, by simp [initialLoopState, lookupCost]⟩
  · intro s g hl
    by_cases hx : s = cfg.task.initial_state
    · rw [hx]
      exact ReachableState.init
    · simp only [initialLoopState, lookupCost, if_neg hx] at hl
      cases hl
  · intro e he
    have he' : e = cfg.make_open_entry (make_root_node cfg.task.initial_state)
        (cfg.heuristic.h (make_root_node cfg.task.initial_state)) 0 := by
      simpa [initialLoopState] using he
    subst he'
    rw [hmk]
    exact ⟨0, by simp [initialLoopState, lookupCost, make_root_node, SearchNode.state],
      Nat.le_refl 0⟩
  · intro s hs
    left
    have hx : s = cfg.task.initial_state := by
      obtain ⟨g, hg⟩ := hs
      by_cases hxx : s = cfg.task.initial_state
      · exact hxx
      · simp only [initialLoopState, lookupCost, if_neg hxx] at hg
        cases hg
    subst hx
    refine ⟨cfg.make_open_entry (make_root_node cfg.task.initial_state)
      (cfg.heuristic.h (make_root_node cfg.task.initial_state)) 0,
      List.mem_cons_self _ _, ?_, ?_⟩
    · rw [hmk]
      rfl
    · rw [hmk]
      simp [initialLoopState, lookupCost, make_root_node, SearchNode.state, SearchNode.g]
  · intro s hs
    exact absurd hs (by simp [initialLoopState])

/-- C6 (amended).  For every task whose goal is unreachable, with a finite
reachable state set, a heuristic finite on every node with a reachable
state, plain A* ordering, no relaxed-plan guidance, no partial plans and the
timeout never expiring, the search terminates with no plan, and the set of
expanded states is exactly the set of reachable states. -/
theorem c6_unreachable_goal {S : Type} [DecidableEq S] (task : Task S)
    (heuristic : Heuristic S) (R : List S)
    (hR : ∀ s, ReachableState task s ↔ s ∈ R)
    (hg : ∀ s, ReachableState task s → task.goal_reached s = false)
    (hh : ∀ n : SearchNode S, ReachableState task n.state → heuristic.h n ≠ none) :
    ∃ fuel fin,
      astar_search ⟨task, heuristic, ordered_node_astar, false, fun _ => false⟩ fuel none
          "init-queue"
        = .ok (.finished none fin.metrics, fin)
      ∧ (∀ s, s ∈ fin.closed ↔ ReachableState task s) := by
  set cfg : Config S := ⟨task, heuristic, ordered_node_astar, false, fun _ => false⟩
    with hcfg
  have hmk : ∀ (m : SearchNode S) (hv : HVal) (t : Nat),
      (cfg.make_open_entry m hv t).node = m := fun _ _ _ => rfl
  obtain ⟨fuel, fin, hrun, hfin, hinvfin⟩ :=
    runLoop_exh_aux cfg R rfl hmk hh hg hR (fun _ => rfl) _ _ _
      (initialLoopState cfg) 0 rfl rfl rfl (initial_ExhInv cfg hmk)
  refine ⟨fuel, fin, ?_, ?_⟩
  · have heq : astar_search cfg fuel none "init-queue"
        = runLoop cfg fuel 0 (initialLoopState cfg) := rfl
    rw [heq, hrun]
  · exact exh_terminal cfg hfin hinvfin

/-- C6.  The claim as stated is false: for the unreachable-goal task on
states `{false, true}` whose only transition leads to the reachable state
`true`, with a heuristic that is infinite on `true`, the search returns no
plan after expanding only `false` — the reachable state `true` is never
admitted (dead-end pruning), so the expanded set is strictly smaller than
the reachable set. -/
theorem c6_counterexample :
    (astar_search cfgB 10 none "init-queue").map (fun r => (r.1, r.2.closed))
        = .ok (.finished none ⟨1, 1⟩, [false])
      ∧ ReachableState taskB true
      ∧ (true ∈ ([false] : List Bool) → False) := by
  refine ⟨by rfl, ?_, by simp⟩
  exact ReachableState.succ false true ⟨"b", fun _ => true, fun _ => true, 1⟩
    ReachableState.init (by simp [taskB])

/-- A witness for C6 (amended): the one-state unsolvable task with an
everywhere-finite heuristic. -/
theorem c6_unreachable_goal_witness :
    ∃ fuel fin,
      astar_search ⟨taskU, heurU, ordered_node_astar, false, fun _ => false⟩ fuel none
          "init-queue"
        = .ok (.finished none fin.metrics, fin)
      ∧ (∀ s, s ∈ fin.closed ↔ ReachableState taskU s) := by
  refine c6_unreachable_goal taskU heurU [()] ?_ ?_ ?_
  · intro s
    cases s
    exact ⟨fun _ => List.mem_cons_self _ _, fun _ => ReachableState.init⟩
  · intro s _
    rfl
  · intro n _
    simp [heurU]

end AStar
